import Mathlib

/-!
Shallow embedding of `simple_vector.h` / `array_ptr.h`: a dynamic array
(`SimpleVector`) built on an exclusively owning buffer (`ArrayPtr`).

Modelling conventions:
* A vector state is `size_`, `capacity_`, and `items_ : List α`, where
  `items_` is the contents of the owned block. `ArrayPtr<Type>(0)` leaves the
  raw pointer null, and `ArrayPtr<Type>(n)` with `n > 0` allocates `n` slots;
  hence the empty list `[]` models exactly the null handle.
* `new Type[n]` default-initializes class-type elements; freshly allocated
  slots are modelled as `default`. For trivial types their values are
  indeterminate in C++, but on every code path such a slot is written before
  it is read, so the choice is unobservable.
* STL range algorithms (`std::fill`, `std::copy`, `std::move`,
  `std::copy_backward`, `std::equal`, `std::lexicographical_compare`) are
  embedded by their documented element-wise semantics.
* Buffer identity (`ArrayPtr::Get`, needed by the copy-assignment assertion
  and by move semantics of the raw handle) is modelled separately by
  `ArrayPtr` below, whose `raw_ptr_ : Option Nat` is an allocation identity,
  `none` being `nullptr`.
-/

/-! ## The owning buffer handle (array_ptr.h), identity level -/

/-- The raw-handle view of `ArrayPtr<Type>`: `raw_ptr_` is the identity of the
owned block (`none` models `nullptr`). Block contents are carried by
`SimpleVector.items_` instead. -/
structure ArrayPtr where
  raw_ptr_ : Option Nat
  deriving DecidableEq

/-- `explicit operator bool() const` from array_ptr.h: true iff the handle
owns a block, i.e. the raw pointer is non-null. -/
def ArrayPtr.toBoolOp (p : ArrayPtr) : Bool :=
  p.raw_ptr_.isSome

/-- `ArrayPtr(ArrayPtr&& other)`: steals the raw pointer and nulls the source.
Returns (constructed object, source afterwards). -/
def ArrayPtr.moveCtor (other : ArrayPtr) : ArrayPtr × ArrayPtr :=
  (⟨other.raw_ptr_⟩, ⟨none⟩)

/-- `ArrayPtr& operator=(ArrayPtr&& other)`: if the two raw pointers are
equal it returns immediately; otherwise it swaps the raw pointers.
Returns (destination afterwards, source afterwards). -/
def ArrayPtr.moveAssign (dest other : ArrayPtr) : ArrayPtr × ArrayPtr :=
  if dest.raw_ptr_ = other.raw_ptr_ then (dest, other)
  else (⟨other.raw_ptr_⟩, ⟨dest.raw_ptr_⟩)

/-! ## STL range algorithms on buffers -/

/-- `std::fill(&l[first], &l[last], x)`: overwrite the slots with indices in
`[first, last)` with `x`. Writes outside the buffer do not exist in the value
model (out-of-bounds behaviour is tracked separately where a claim needs it). -/
def stdFill {α : Type} [Inhabited α] (l : List α) (first last : Nat) (x : α) : List α :=
  List.ofFn fun j : Fin l.length =>
    if first ≤ (j : Nat) ∧ (j : Nat) < last then x else l.getD j default

/-- `FillByMove(first, last, Type())` from simple_vector.h: assigns a
default-constructed value into every slot of `[first, last)`. -/
def fillByMove {α : Type} [Inhabited α] (l : List α) (first last : Nat) : List α :=
  stdFill l first last default

/-- `std::copy(src.begin, src.end, &dst[off])` (also `std::move` over the same
range): element `k` of `src` lands in slot `off + k` of `dst`. -/
def stdCopy {α : Type} [Inhabited α] (dst : List α) (off : Nat) (src : List α) : List α :=
  List.ofFn fun j : Fin dst.length =>
    if off ≤ (j : Nat) ∧ (j : Nat) < off + src.length
    then src.getD ((j : Nat) - off) default
    else dst.getD j default

/-- `std::copy_backward(&l[first], &l[last], &l[last+1])` (and the
`std::move_backward` overload): shifts the range `[first, last)` one slot
toward the tail, so slot `j` for `j` in `[first+1, last]` receives the old
element `j - 1`. -/
def shiftRightOne {α : Type} [Inhabited α] (l : List α) (first last : Nat) : List α :=
  List.ofFn fun j : Fin l.length =>
    if first + 1 ≤ (j : Nat) ∧ (j : Nat) < last + 1
    then l.getD ((j : Nat) - 1) default
    else l.getD j default

/-- The `Erase` shifting loop: starting at `it = &l[first]` it assigns
`*temp_it = std::move(*next_it)` while `next_it != &l[last]`, so slot `j` for
`j` in `[first, last-1)` receives the old element `j + 1`. -/
def shiftLeftOne {α : Type} [Inhabited α] (l : List α) (first last : Nat) : List α :=
  List.ofFn fun j : Fin l.length =>
    if first ≤ (j : Nat) ∧ (j : Nat) + 1 < last
    then l.getD ((j : Nat) + 1) default
    else l.getD j default

/-- `std::lexicographical_compare(first1, last1, first2, last2)` with
`operator<` on elements. -/
def lexCompare {α : Type} [LinearOrder α] : List α → List α → Bool
  | _, [] => false
  | [], _ :: _ => true
  | a :: as, b :: bs =>
      if a < b then true else if b < a then false else lexCompare as bs

/-! ## The dynamic array (simple_vector.h) -/

/-- The state of `SimpleVector<Type>`: logical size, allocated capacity, and
the contents of the owned block (`[]` models a null handle). -/
structure SimpleVector (α : Type) where
  size_ : Nat
  capacity_ : Nat
  items_ : List α
  deriving DecidableEq

namespace SimpleVector

variable {α : Type} [Inhabited α]

/-- The unchecked element access `items_[index]` (through
`ArrayPtr::operator[]`). -/
def get (v : SimpleVector α) (i : Nat) : α :=
  v.items_.getD i default

/-- The data-model invariant of §3: `0 ≤ size ≤ capacity` and the vector owns
exactly one buffer of `capacity` slots. -/
def Inv (v : SimpleVector α) : Prop :=
  v.size_ ≤ v.capacity_ ∧ v.items_.length = v.capacity_

instance (v : SimpleVector α) : Decidable v.Inv := by
  unfold Inv; infer_instance

/-- The weakened data-model invariant that actually survives move-assignment:
the size never exceeds the capacity, and the owned block has at least
`capacity_` slots (not necessarily exactly that many). -/
def WeakInv (v : SimpleVector α) : Prop :=
  v.size_ ≤ v.capacity_ ∧ v.capacity_ ≤ v.items_.length

/-- `SimpleVector()`: size = capacity = 0, null handle. -/
def mkDefault : SimpleVector α :=
  { size_ := 0, capacity_ := 0, items_ := [] }

/-- `explicit SimpleVector(size_t size)`: allocates `size` slots and
`std::fill`s `[0, size)` with `Type()`. -/
def mkSize (n : Nat) : SimpleVector α :=
  { size_ := n, capacity_ := n,
    items_ := stdFill (List.replicate n default) 0 n default }

/-- `SimpleVector(size_t size, const Type& value)`: allocates `size` slots and
`std::fill`s `[0, size)` with `value`. -/
def mkSizeVal (n : Nat) (x : α) : SimpleVector α :=
  { size_ := n, capacity_ := n,
    items_ := stdFill (List.replicate n default) 0 n x }

/-- `SimpleVector(std::initializer_list<Type> init)`: allocates `init.size()`
slots; the loop copies `init[i]` into slot `i`. -/
def mkInit (l : List α) : SimpleVector α :=
  { size_ := l.length, capacity_ := l.length,
    items_ := stdCopy (List.replicate l.length default) 0 l }

/-- `SimpleVector(ReserveProxyObj const&)`: size 0, capacity = hint, allocates
`hint` slots, no element initialized. -/
def mkReserve (n : Nat) : SimpleVector α :=
  { size_ := 0, capacity_ := n, items_ := List.replicate n default }

/-- The copy constructor: allocates `other.size_` slots, copies
`[other.begin, other.end)` into them, and swaps the buffer in; the result has
size = capacity = `other.size_`. -/
def copyCtor (other : SimpleVector α) : SimpleVector α :=
  { size_ := other.size_, capacity_ := other.size_,
    items_ := stdCopy (List.replicate other.size_ default) 0
      (other.items_.take other.size_) }

/-- The assertion guarding `operator=(const SimpleVector&)`:
`assert(this->items_.Get() != rhs.items_.Get())`. For two distinct live
vectors the raw pointers coincide exactly when both handles are null (two
live allocations are distinct blocks), i.e. when both `items_` are empty. -/
def copyAssignAssertHolds (lhs rhs : SimpleVector α) : Bool :=
  !(lhs.items_.isEmpty && rhs.items_.isEmpty)

/-- `operator=(const SimpleVector& rhs)` past its assertion: builds a fresh
buffer of `rhs.size_` slots, copies `[rhs.begin, rhs.end)` into it, swaps it
in, and sets size = capacity = `rhs.size_`. The old contents of `lhs` are
discarded entirely. -/
def copyAssign (_lhs : SimpleVector α) (rhs : SimpleVector α) : SimpleVector α :=
  { size_ := rhs.size_, capacity_ := rhs.size_,
    items_ := stdCopy (List.replicate rhs.size_ default) 0
      (rhs.items_.take rhs.size_) }

/-- `SimpleVector(SimpleVector&& other)`: copies size and capacity, moves the
buffer in (the freshly constructed handle is null, so the `ArrayPtr` move
ends with this holding `other`'s block and `other`'s handle null), then
zeroes `other`'s size and capacity. Returns (constructed, source afterwards). -/
def moveCtor (other : SimpleVector α) : SimpleVector α × SimpleVector α :=
  ({ size_ := other.size_, capacity_ := other.capacity_, items_ := other.items_ },
   { size_ := 0, capacity_ := 0, items_ := [] })

/-- `operator=(SimpleVector&& other)`: `this->items_ = std::move(other.items_)`
is `ArrayPtr`'s move-assignment, which swaps the two blocks (its
equal-pointer early-out fires for two distinct vectors only when both handles
are null, where the swap is a no-op anyway); then this takes `other`'s size
and capacity and `other`'s are zeroed. Returns (destination, source). -/
def moveAssign (dest src : SimpleVector α) : SimpleVector α × SimpleVector α :=
  ({ size_ := src.size_, capacity_ := src.capacity_, items_ := src.items_ },
   { size_ := 0, capacity_ := 0, items_ := dest.items_ })

/-- `swap`: exchanges buffer, size and capacity. -/
def swapOp (a b : SimpleVector α) : SimpleVector α × SimpleVector α :=
  (b, a)

/-- `At(size_t index)`: throws `std::out_of_range` when `index >= size_`,
otherwise returns the element `items_[index]`. The body reads only, so the
vector is unchanged by the call. -/
def At (v : SimpleVector α) (i : Nat) : Except String α :=
  if v.size_ ≤ i then .error "Elements index is incorrect (bigger than size)"
  else .ok (v.items_.getD i default)

/-- `Reserve(size_t new_capacity)`: a request of 0 is treated as 1; a request
not exceeding the capacity is a no-op; otherwise a fresh block of
`new_capacity` slots is allocated, `[begin, end)` is moved into its front,
`FillByMove` default-fills `[size_, new_capacity)`, the blocks are swapped
and capacity is updated. -/
def Reserve (v : SimpleVector α) (new_capacity : Nat) : SimpleVector α :=
  let nc := if new_capacity = 0 then 1 else new_capacity
  if nc ≤ v.capacity_ then v
  else
    let temp : List α := List.replicate nc default
    let temp := stdCopy temp 0 (v.items_.take v.size_)
    let temp := fillByMove temp v.size_ nc
    { size_ := v.size_, capacity_ := nc, items_ := temp }

/-- `PushBack` (both overloads write `value` into slot `size_`): grows via
`Reserve(capacity_ * 2)` when full, stores the value at index `size_`, then
increments the size. -/
def PushBack (v : SimpleVector α) (x : α) : SimpleVector α :=
  let v1 := if v.size_ = v.capacity_ then v.Reserve (v.capacity_ * 2) else v
  { v1 with items_ := v1.items_.set v1.size_ x, size_ := v1.size_ + 1 }

/-- `Resize(size_t new_size)`: the four sequential branches of the source,
with each test evaluated against the state left by the previous branch
(shrinking updates `size_` before the fill branch re-tests it). The stray
`Type* test = &items_[6];` in the fill branch has no effect on the value
state; its buffer access is modelled by `resizeFillAccesses` below. -/
def Resize (v : SimpleVector α) (new_size : Nat) : SimpleVector α :=
  if new_size = v.size_ then v
  else
    let v1 := if new_size < v.size_ then { v with size_ := new_size } else v
    let v2 :=
      if v1.size_ < new_size ∧ new_size ≤ v1.capacity_ then
        { v1 with items_ := fillByMove v1.items_ v1.size_ new_size,
                  size_ := new_size }
      else v1
    if v2.capacity_ < new_size then
      { v2.Reserve (max (v2.capacity_ * 2) new_size) with size_ := new_size }
    else v2

/-- `Clear()` delegates to `Resize(0)`. -/
def Clear (v : SimpleVector α) : SimpleVector α :=
  v.Resize 0

/-- `PopBack()`: no-op on an empty vector, otherwise decrements the size. -/
def PopBack (v : SimpleVector α) : SimpleVector α :=
  if v.size_ = 0 then v else { v with size_ := v.size_ - 1 }

/-- `Insert(pos, value)` with `pos = begin + i` (the assert requires
`begin ≤ pos < end`, i.e. `i < size_`): records the offset, grows via
`Reserve(capacity_ * 2)` when full, `copy_backward`s `[i, size_)` one slot
toward the tail, writes the value at slot `i`, increments the size and
returns the iterator `begin + i`. Both overloads shift and store the same
element values. Returns (new state, index of returned iterator). -/
def Insert (v : SimpleVector α) (i : Nat) (x : α) : SimpleVector α × Nat :=
  let shift := i
  let v1 := if v.size_ = v.capacity_ then v.Reserve (v.capacity_ * 2) else v
  let items := shiftRightOne v1.items_ shift v1.size_
  ({ v1 with items_ := items.set shift x, size_ := v1.size_ + 1 }, shift)

/-- `Erase(pos)` with `pos = begin + i` (the assert requires `i < size_`):
shifts `[i+1, size_)` one slot toward the head, decrements the size and
returns the iterator `begin + i`, which now addresses the element that
followed the erased one. Returns (new state, index of returned iterator). -/
def Erase (v : SimpleVector α) (i : Nat) : SimpleVector α × Nat :=
  ({ v with items_ := shiftLeftOne v.items_ i v.size_, size_ := v.size_ - 1 }, i)

/-- `operator==`: false on different sizes, otherwise
`std::equal(lhs.begin(), lhs.end(), rhs.begin())`, i.e. element-wise equality
over the first `size_` slots. -/
def vecEq [DecidableEq α] (a b : SimpleVector α) : Bool :=
  if a.size_ ≠ b.size_ then false
  else (List.range a.size_).all fun i => a.get i = b.get i

/-- `operator<`: `std::lexicographical_compare` over `[begin, end)` of each
side. -/
def vecLt [LinearOrder α] (a b : SimpleVector α) : Bool :=
  lexCompare (a.items_.take a.size_) (b.items_.take b.size_)

/-- The buffer indices at which `Resize`'s fill-in-place branch
(`size_ < new_size ≤ capacity_`) forms references into the owned block:
`Type* test = &items_[6];` touches index 6, and
`FillByMove(&items_[size_], &items_[new_size], Type())` writes the indices
`[size_, new_size)`. -/
def resizeFillAccesses (v : SimpleVector α) (new_size : Nat) : List Nat :=
  6 :: (List.range new_size).drop v.size_

/-- The states a `SimpleVector` can be left in by any sequence of constructor
calls and public operations of simple_vector.h, including the moved-from
states. `Insert` and `Erase` are taken at positions satisfying their
precondition assertion `begin ≤ pos < end`. -/
inductive Reachable : SimpleVector α → Prop where
  | mkDefault : Reachable mkDefault
  | mkSize (n : Nat) : Reachable (mkSize n)
  | mkSizeVal (n : Nat) (x : α) : Reachable (mkSizeVal n x)
  | mkInit (l : List α) : Reachable (mkInit l)
  | mkReserve (n : Nat) : Reachable (mkReserve n)
  | copyCtor {v : SimpleVector α} : Reachable v → Reachable (copyCtor v)
  | copyAssign {a b : SimpleVector α} : Reachable a → Reachable b →
      Reachable (copyAssign a b)
  | moveCtorDst {v : SimpleVector α} : Reachable v → Reachable (moveCtor v).1
  | moveCtorSrc {v : SimpleVector α} : Reachable v → Reachable (moveCtor v).2
  | moveAssignDst {a b : SimpleVector α} : Reachable a → Reachable b →
      Reachable (moveAssign a b).1
  | moveAssignSrc {a b : SimpleVector α} : Reachable a → Reachable b →
      Reachable (moveAssign a b).2
  | swapFst {a b : SimpleVector α} : Reachable a → Reachable b →
      Reachable (swapOp a b).1
  | swapSnd {a b : SimpleVector α} : Reachable a → Reachable b →
      Reachable (swapOp a b).2
  | clear {v : SimpleVector α} : Reachable v → Reachable (Clear v)
  | resize {v : SimpleVector α} (n : Nat) : Reachable v → Reachable (Resize v n)
  | popBack {v : SimpleVector α} : Reachable v → Reachable (PopBack v)
  | pushBack {v : SimpleVector α} (x : α) : Reachable v → Reachable (PushBack v x)
  | insert {v : SimpleVector α} (i : Nat) (x : α) : Reachable v → i < v.size_ →
      Reachable (Insert v i x).1
  | erase {v : SimpleVector α} (i : Nat) : Reachable v → i < v.size_ →
      Reachable (Erase v i).1
  | reserve {v : SimpleVector α} (n : Nat) : Reachable v → Reachable (Reserve v n)

end SimpleVector

/-! ## Buffer lemmas -/

theorem getD_ofFn {α : Type} [Inhabited α] {n : Nat} (f : Fin n → α) (i : Nat) :
    (List.ofFn f).getD i default = if h : i < n then f ⟨i, h⟩ else default := by
  by_cases h : i < n
  · rw [List.getD_eq_getElem _ _ (by simpa using h), List.getElem_ofFn]
    simp [h]
  · rw [List.getD_eq_default _ _ (by simpa using Nat.le_of_not_lt h)]
    simp [h]

theorem getD_replicate_default {α : Type} [Inhabited α] (n i : Nat) :
    (List.replicate n (default : α)).getD i default = default := by
  by_cases h : i < n
  · rw [List.getD_eq_getElem _ _ (by simpa using h)]
    simp
  · rw [List.getD_eq_default _ _ (by simpa using Nat.le_of_not_lt h)]

theorem getD_take {α : Type} [Inhabited α] (l : List α) (n i : Nat) (h : i < n) :
    (l.take n).getD i default = l.getD i default := by
  by_cases hl : i < l.length
  · rw [List.getD_eq_getElem _ _ (by simp [List.length_take]; omega),
      List.getD_eq_getElem _ _ hl, List.getElem_take]
  · rw [List.getD_eq_default _ _ (by simp [List.length_take]; omega),
      List.getD_eq_default _ _ (by omega)]

theorem length_stdFill {α : Type} [Inhabited α] (l : List α) (a b : Nat) (x : α) :
    (stdFill l a b x).length = l.length := by
  simp [stdFill, List.length_ofFn]

theorem length_stdCopy {α : Type} [Inhabited α] (dst : List α) (off : Nat) (src : List α) :
    (stdCopy dst off src).length = dst.length := by
  simp [stdCopy, List.length_ofFn]

theorem length_shiftRightOne {α : Type} [Inhabited α] (l : List α) (a b : Nat) :
    (shiftRightOne l a b).length = l.length := by
  simp [shiftRightOne, List.length_ofFn]

theorem length_shiftLeftOne {α : Type} [Inhabited α] (l : List α) (a b : Nat) :
    (shiftLeftOne l a b).length = l.length := by
  simp [shiftLeftOne, List.length_ofFn]

theorem getD_stdFill {α : Type} [Inhabited α] (l : List α) (a b : Nat) (x : α) (i : Nat) :
    (stdFill l a b x).getD i default =
      if a ≤ i ∧ i < b ∧ i < l.length then x else l.getD i default := by
  rw [stdFill, getD_ofFn]
  by_cases h : i < l.length
  · by_cases hab : a ≤ i ∧ i < b
    · simp [h, hab]
    · simp only [dif_pos h, Fin.val_mk]
      rw [if_neg hab, if_neg (by tauto)]
  · rw [dif_neg h, List.getD_eq_default _ _ (Nat.le_of_not_lt h), if_neg (by tauto)]

theorem getD_stdCopy {α : Type} [Inhabited α] (dst : List α) (off : Nat) (src : List α)
    (i : Nat) :
    (stdCopy dst off src).getD i default =
      if off ≤ i ∧ i < off + src.length ∧ i < dst.length
      then src.getD (i - off) default else dst.getD i default := by
  rw [stdCopy, getD_ofFn]
  by_cases h : i < dst.length
  · by_cases hab : off ≤ i ∧ i < off + src.length
    · simp [h, hab]
    · simp only [dif_pos h, Fin.val_mk]
      rw [if_neg hab, if_neg (by tauto)]
  · rw [dif_neg h, List.getD_eq_default _ _ (Nat.le_of_not_lt h), if_neg (by tauto)]

theorem getD_shiftRightOne {α : Type} [Inhabited α] (l : List α) (a b : Nat) (i : Nat) :
    (shiftRightOne l a b).getD i default =
      if a + 1 ≤ i ∧ i < b + 1 ∧ i < l.length
      then l.getD (i - 1) default else l.getD i default := by
  rw [shiftRightOne, getD_ofFn]
  by_cases h : i < l.length
  · by_cases hab : a + 1 ≤ i ∧ i < b + 1
    · simp [h, hab]
    · simp only [dif_pos h, Fin.val_mk]
      rw [if_neg hab, if_neg (by tauto)]
  · rw [dif_neg h, List.getD_eq_default _ _ (Nat.le_of_not_lt h), if_neg (by tauto)]

theorem getD_shiftLeftOne {α : Type} [Inhabited α] (l : List α) (a b : Nat) (i : Nat) :
    (shiftLeftOne l a b).getD i default =
      if a ≤ i ∧ i + 1 < b ∧ i < l.length
      then l.getD (i + 1) default else l.getD i default := by
  rw [shiftLeftOne, getD_ofFn]
  by_cases h : i < l.length
  · by_cases hab : a ≤ i ∧ i + 1 < b
    · simp [h, hab]
    · simp only [dif_pos h, Fin.val_mk]
      rw [if_neg hab, if_neg (by tauto)]
  · rw [dif_neg h, List.getD_eq_default _ _ (Nat.le_of_not_lt h), if_neg (by tauto)]

theorem getD_set_self {α : Type} [Inhabited α] (l : List α) (i : Nat) (x : α)
    (h : i < l.length) : (l.set i x).getD i default = x := by
  rw [List.getD_eq_getElem _ _ (by simpa using h)]
  simp

theorem getD_set_ne {α : Type} [Inhabited α] (l : List α) (i j : Nat) (x : α)
    (h : i ≠ j) : (l.set i x).getD j default = l.getD j default := by
  by_cases hj : j < l.length
  · rw [List.getD_eq_getElem _ _ (by simpa using hj), List.getD_eq_getElem _ _ hj,
      List.getElem_set_ne h]
  · rw [List.getD_eq_default _ _ (by simpa using Nat.le_of_not_lt hj),
      List.getD_eq_default _ _ (Nat.le_of_not_lt hj)]

theorem lexCompare_self {α : Type} [LinearOrder α] (l : List α) :
    lexCompare l l = false := by
  induction l with
  | nil => rfl
  | cons a as ih => simp [lexCompare, lt_irrefl, ih]

/-! ## Reserve characterization -/

namespace SimpleVector

variable {α : Type} [Inhabited α]

theorem Reserve_noGrow (v : SimpleVector α) (n : Nat)
    (h : (if n = 0 then 1 else n) ≤ v.capacity_) : v.Reserve n = v := by
  simp only [Reserve]
  rw [if_pos h]

theorem Reserve_grow (v : SimpleVector α) (n : Nat)
    (h : v.capacity_ < if n = 0 then 1 else n)
    (hsz : v.size_ ≤ if n = 0 then 1 else n) :
    (v.Reserve n).size_ = v.size_ ∧
    (v.Reserve n).capacity_ = (if n = 0 then 1 else n) ∧
    (v.Reserve n).items_.length = (if n = 0 then 1 else n) ∧
    (∀ i, i < v.size_ → (v.Reserve n).get i = v.get i) ∧
    (∀ i, v.size_ ≤ i → (v.Reserve n).get i = default) := by
  set nc := if n = 0 then 1 else n with hnc
  have hite : v.Reserve n = ⟨v.size_, nc,
      fillByMove
        (stdCopy (List.replicate nc default) 0 (v.items_.take v.size_)) v.size_ nc⟩ := by
    simp only [Reserve, ← hnc]
    rw [if_neg (Nat.not_le.mpr h)]
  have hlen : (stdCopy (List.replicate nc (default : α)) 0 (v.items_.take v.size_)).length
      = nc := by
    rw [length_stdCopy, List.length_replicate]
  have ht : (v.items_.take v.size_).length ≤ v.size_ := by
    simp [List.length_take]
  rw [hite]
  refine ⟨rfl, rfl, ?_, ?_, ?_⟩
  · show (fillByMove _ _ _).length = nc
    rw [fillByMove, length_stdFill, hlen]
  · intro i hi
    show (fillByMove _ _ _).getD i default = v.get i
    rw [fillByMove, getD_stdFill, if_neg (by omega), getD_stdCopy]
    by_cases hc : i < (v.items_.take v.size_).length
    · rw [if_pos ⟨Nat.zero_le i, by omega, by rw [List.length_replicate]; omega⟩,
        Nat.sub_zero]
      exact getD_take _ _ _ hi
    · rw [if_neg (by omega), getD_replicate_default]
      have hvl : v.items_.length ≤ i := by
        have := List.length_take v.size_ v.items_
        omega
      rw [get, List.getD_eq_default _ _ hvl]
  · intro i hi
    show (fillByMove _ _ _).getD i default = default
    rw [fillByMove, getD_stdFill, hlen]
    by_cases hc : i < nc
    · rw [if_pos ⟨hi, hc, hc⟩]
    · rw [if_neg (by omega), getD_stdCopy]
      rw [if_neg (by omega)]
      exact getD_replicate_default _ _

theorem Resize_noop (v : SimpleVector α) (n : Nat) (h : n = v.size_) :
    v.Resize n = v := by
  simp only [Resize]
  rw [if_pos h]

theorem Resize_shrink (v : SimpleVector α) (n : Nat) (hb : n < v.size_)
    (hcap : v.size_ ≤ v.capacity_) :
    v.Resize n = { v with size_ := n } := by
  simp only [Resize]
  split_ifs with h1 h2 h3 <;> first | rfl | (exfalso; simp_all; try omega)

theorem Resize_fill (v : SimpleVector α) (n : Nat) (h1 : v.size_ < n)
    (h2 : n ≤ v.capacity_) :
    v.Resize n = { v with items_ := fillByMove v.items_ v.size_ n, size_ := n } := by
  simp only [Resize]
  split_ifs with ha hb hc <;> first | rfl | (exfalso; simp_all; try omega)

theorem Resize_growCase (v : SimpleVector α) (n : Nat) (hcap : v.size_ ≤ v.capacity_)
    (h : v.capacity_ < n) :
    v.Resize n = { v.Reserve (max (v.capacity_ * 2) n) with size_ := n } := by
  simp only [Resize]
  split_ifs with ha hb hc <;> first | rfl | (exfalso; simp_all; try omega)

end SimpleVector

/-! ## Operation characterizations -/

namespace SimpleVector

variable {α : Type} [Inhabited α]

/-- What `PushBack` does on a well-formed vector: appends the value at index
`size_`, increments the size, preserves the prefix, and grows the capacity
(0 becomes 1, otherwise doubled) exactly when the vector was full. -/
theorem PushBack_spec (v : SimpleVector α) (x : α) (hwf : v.Inv) :
    (v.PushBack x).size_ = v.size_ + 1 ∧
    (v.PushBack x).get v.size_ = x ∧
    (∀ i, i < v.size_ → (v.PushBack x).get i = v.get i) ∧
    (v.PushBack x).capacity_ =
      (if v.size_ = v.capacity_
       then (if v.capacity_ = 0 then 1 else v.capacity_ * 2)
       else v.capacity_) ∧
    (v.PushBack x).Inv := by
  obtain ⟨hsc, hlen⟩ := hwf
  by_cases hfull : v.size_ = v.capacity_
  · have hlt : v.capacity_ < (if v.capacity_ * 2 = 0 then 1 else v.capacity_ * 2) := by
      by_cases hc0 : v.capacity_ = 0
      · simp [hc0]
      · rw [if_neg (by omega)]
        omega
    have hsz : v.size_ ≤ (if v.capacity_ * 2 = 0 then 1 else v.capacity_ * 2) := by
      by_cases hc0 : v.capacity_ = 0
      · simp [hc0]
        omega
      · rw [if_neg (by omega)]
        omega
    obtain ⟨hs, hc2, hl, hlo, hhi⟩ := Reserve_grow v (v.capacity_ * 2) hlt hsz
    have hncge : v.size_ + 1 ≤ (if v.capacity_ * 2 = 0 then 1 else v.capacity_ * 2) := by
      by_cases hc0 : v.capacity_ = 0
      · simp [hc0]
        omega
      · rw [if_neg (by omega)]
        omega
    have hPB : v.PushBack x = ⟨(v.Reserve (v.capacity_ * 2)).size_ + 1,
        (v.Reserve (v.capacity_ * 2)).capacity_,
        (v.Reserve (v.capacity_ * 2)).items_.set (v.Reserve (v.capacity_ * 2)).size_ x⟩ := by
      simp only [PushBack]
      rw [if_pos hfull]
    rw [hPB, hs, hc2]
    refine ⟨rfl, ?_, ?_, ?_, ?_, ?_⟩
    · simp only [get]
      exact getD_set_self _ _ _ (by rw [hl]; omega)
    · intro i hi
      simp only [get]
      rw [getD_set_ne _ _ _ _ (by omega)]
      exact hlo i hi
    · rw [if_pos hfull]
      by_cases hc0 : v.capacity_ = 0
      · simp [hc0]
      · rw [if_neg (by omega), if_neg hc0]
    · show v.size_ + 1 ≤ (if v.capacity_ * 2 = 0 then 1 else v.capacity_ * 2)
      exact hncge
    · show ((v.Reserve (v.capacity_ * 2)).items_.set v.size_ x).length
          = (if v.capacity_ * 2 = 0 then 1 else v.capacity_ * 2)
      rw [List.length_set, hl]
  · have hPB : v.PushBack x =
        ⟨v.size_ + 1, v.capacity_, v.items_.set v.size_ x⟩ := by
      simp only [PushBack]
      rw [if_neg hfull]
    rw [hPB]
    refine ⟨rfl, ?_, ?_, ?_, ?_, ?_⟩
    · simp only [get]
      exact getD_set_self _ _ _ (by omega)
    · intro i hi
      simp only [get]
      rw [getD_set_ne _ _ _ _ (by omega)]
    · rw [if_neg hfull]
    · show v.size_ + 1 ≤ v.capacity_
      omega
    · show (v.items_.set v.size_ x).length = v.capacity_
      rw [List.length_set, hlen]

/-- What `Insert` does at a position satisfying its assertion: the elements
before the position are kept, those at or after it move one slot toward the
tail, the value lands at the position, the size grows by one and the
capacity grows like `PushBack` when the vector was full. -/
theorem Insert_spec (v : SimpleVector α) (i : Nat) (x : α) (hwf : v.Inv)
    (hi : i < v.size_) :
    (v.Insert i x).2 = i ∧
    (v.Insert i x).1.size_ = v.size_ + 1 ∧
    (v.Insert i x).1.get i = x ∧
    (∀ k, k < i → (v.Insert i x).1.get k = v.get k) ∧
    (∀ k, i < k → k ≤ v.size_ → (v.Insert i x).1.get k = v.get (k - 1)) ∧
    (v.Insert i x).1.capacity_ =
      (if v.size_ = v.capacity_
       then (if v.capacity_ = 0 then 1 else v.capacity_ * 2)
       else v.capacity_) ∧
    (v.Insert i x).1.Inv := by
  obtain ⟨hsc, hlen⟩ := hwf
  by_cases hfull : v.size_ = v.capacity_
  · have hc0 : ¬ v.capacity_ = 0 := by omega
    have hnc : (if v.capacity_ * 2 = 0 then 1 else v.capacity_ * 2)
        = v.capacity_ * 2 := by
      rw [if_neg (by omega)]
    obtain ⟨hs, hc2, hl, hlo, hhi⟩ := Reserve_grow v (v.capacity_ * 2)
      (by rw [hnc]; omega) (by rw [hnc]; omega)
    rw [hnc] at hc2 hl
    have hv1 : v.Insert i x = (⟨(v.Reserve (v.capacity_ * 2)).size_ + 1,
        (v.Reserve (v.capacity_ * 2)).capacity_,
        (shiftRightOne (v.Reserve (v.capacity_ * 2)).items_ i
          (v.Reserve (v.capacity_ * 2)).size_).set i x⟩, i) := by
      simp only [Insert]
      rw [if_pos hfull]
    rw [hv1, hs, hc2]
    have hlenshift : (shiftRightOne (v.Reserve (v.capacity_ * 2)).items_ i v.size_).length
        = v.capacity_ * 2 := by
      rw [length_shiftRightOne, hl]
    refine ⟨rfl, rfl, ?_, ?_, ?_, ?_, ?_, ?_⟩
    · simp only [get]
      exact getD_set_self _ _ _ (by rw [hlenshift]; omega)
    · intro k hk
      simp only [get]
      rw [getD_set_ne _ _ _ _ (by omega), getD_shiftRightOne, if_neg (by omega)]
      exact hlo k (by omega)
    · intro k hk1 hk2
      simp only [get]
      rw [getD_set_ne _ _ _ _ (by omega), getD_shiftRightOne,
        if_pos ⟨by omega, by omega, by rw [hl]; omega⟩]
      exact hlo (k - 1) (by omega)
    · rw [if_pos hfull, if_neg hc0]
    · show v.size_ + 1 ≤ v.capacity_ * 2
      omega
    · show ((shiftRightOne (v.Reserve (v.capacity_ * 2)).items_ i v.size_).set i x).length
          = v.capacity_ * 2
      rw [List.length_set, hlenshift]
  · have hv1 : v.Insert i x = (⟨v.size_ + 1, v.capacity_,
        (shiftRightOne v.items_ i v.size_).set i x⟩, i) := by
      simp only [Insert]
      rw [if_neg hfull]
    rw [hv1]
    have hlenshift : (shiftRightOne v.items_ i v.size_).length = v.capacity_ := by
      rw [length_shiftRightOne, hlen]
    refine ⟨rfl, rfl, ?_, ?_, ?_, ?_, ?_, ?_⟩
    · simp only [get]
      exact getD_set_self _ _ _ (by rw [hlenshift]; omega)
    · intro k hk
      simp only [get]
      rw [getD_set_ne _ _ _ _ (by omega), getD_shiftRightOne, if_neg (by omega)]
    · intro k hk1 hk2
      simp only [get]
      rw [getD_set_ne _ _ _ _ (by omega), getD_shiftRightOne,
        if_pos ⟨by omega, by omega, by omega⟩]
    · rw [if_neg hfull]
    · show v.size_ + 1 ≤ v.capacity_
      omega
    · show ((shiftRightOne v.items_ i v.size_).set i x).length = v.capacity_
      rw [List.length_set, hlenshift]

/-- What `Erase` does at a position satisfying its assertion: elements after
the position move one slot toward the head, the size shrinks by one, and the
returned iterator is the erase position itself. -/
theorem Erase_spec (w : SimpleVector α) (j : Nat) (hwf : w.Inv) (hj : j < w.size_) :
    (w.Erase j).2 = j ∧
    (w.Erase j).1.size_ = w.size_ - 1 ∧
    (w.Erase j).1.capacity_ = w.capacity_ ∧
    (∀ k, k < j → (w.Erase j).1.get k = w.get k) ∧
    (∀ k, j ≤ k → k + 1 < w.size_ → (w.Erase j).1.get k = w.get (k + 1)) ∧
    (w.Erase j).1.Inv := by
  obtain ⟨hsc, hlen⟩ := hwf
  refine ⟨rfl, rfl, rfl, ?_, ?_, ?_, ?_⟩
  · intro k hk
    simp only [Erase, get]
    rw [getD_shiftLeftOne, if_neg (by omega)]
  · intro k hk1 hk2
    simp only [Erase, get]
    rw [getD_shiftLeftOne, if_pos ⟨hk1, hk2, by omega⟩]
  · show w.size_ - 1 ≤ w.capacity_
    omega
  · show (shiftLeftOne w.items_ j w.size_).length = w.capacity_
    rw [length_shiftLeftOne, hlen]

/-- `operator==` holds exactly on equal sizes plus element-wise equality over
the live prefix. -/
theorem vecEq_iff [DecidableEq α] (a b : SimpleVector α) :
    vecEq a b = true ↔ (a.size_ = b.size_ ∧ ∀ i, i < a.size_ → a.get i = b.get i) := by
  unfold vecEq
  by_cases h : a.size_ = b.size_
  · rw [if_neg (not_not_intro h)]
    constructor
    · intro hall
      refine ⟨h, fun i hi => ?_⟩
      have := List.all_eq_true.mp hall i (List.mem_range.mpr hi)
      simpa using this
    · intro hc
      apply List.all_eq_true.mpr
      intro i hi
      simpa using hc.2 i (List.mem_range.mp hi)
  · rw [if_pos h]
    simp [h]

theorem vecEq_symm [DecidableEq α] (a b : SimpleVector α) : vecEq a b = vecEq b a := by
  cases hab : vecEq a b <;> cases hba : vecEq b a <;> try rfl
  · obtain ⟨hs, hp⟩ := (vecEq_iff b a).mp hba
    have hx : vecEq a b = true :=
      (vecEq_iff a b).mpr ⟨hs.symm, fun i hi => (hp i (by omega)).symm⟩
    rw [hab] at hx
    exact hx
  · obtain ⟨hs, hp⟩ := (vecEq_iff a b).mp hab
    have hx : vecEq b a = true :=
      (vecEq_iff b a).mpr ⟨hs.symm, fun i hi => (hp i (by omega)).symm⟩
    rw [hba] at hx
    exact hx.symm

theorem take_eq_of_vecEq [DecidableEq α] (a b : SimpleVector α) (ha : a.Inv)
    (hb : b.Inv) (h : vecEq a b = true) :
    a.items_.take a.size_ = b.items_.take b.size_ := by
  obtain ⟨hs, hp⟩ := (vecEq_iff a b).mp h
  obtain ⟨hsc1, hlen1⟩ := ha
  obtain ⟨hsc2, hlen2⟩ := hb
  apply List.ext_getElem
  · rw [List.length_take, List.length_take]
    omega
  · intro i h1 h2
    have hi : i < a.size_ := by
      rw [List.length_take] at h1
      omega
    have hx := hp i hi
    rw [get, get, List.getD_eq_getElem _ _ (by omega),
      List.getD_eq_getElem _ _ (by omega)] at hx
    simpa [List.getElem_take] using hx

theorem getD_copyFront (src : List α) (n sz i : Nat) (hi : i < sz) (hn : sz ≤ n) :
    (stdCopy (List.replicate n default) 0 (src.take sz)).getD i default
      = src.getD i default := by
  rw [getD_stdCopy]
  by_cases hc : i < (src.take sz).length
  · rw [if_pos ⟨Nat.zero_le i, by omega, by rw [List.length_replicate]; omega⟩,
      Nat.sub_zero]
    exact getD_take _ _ _ hi
  · rw [if_neg (by omega), getD_replicate_default]
    have hsl : src.length ≤ i := by
      have := List.length_take sz src
      omega
    rw [List.getD_eq_default _ _ hsl]

/-! ## Preservation of the weak invariant by every public operation -/

theorem WeakInv_reserve (v : SimpleVector α) (n : Nat) (hw : v.WeakInv) :
    (v.Reserve n).WeakInv := by
  obtain ⟨h1, h2⟩ := hw
  by_cases hle : (if n = 0 then 1 else n) ≤ v.capacity_
  · rw [Reserve_noGrow v n hle]
    exact ⟨h1, h2⟩
  · have hlt := Nat.not_le.mp hle
    obtain ⟨hs, hc, hl, _, _⟩ := Reserve_grow v n hlt (by omega)
    exact ⟨by omega, by omega⟩

theorem WeakInv_resize (v : SimpleVector α) (n : Nat) (hw : v.WeakInv) :
    (v.Resize n).WeakInv := by
  obtain ⟨h1, h2⟩ := hw
  rcases Nat.lt_trichotomy n v.size_ with hb | he | ha
  · rw [Resize_shrink v n hb h1]
    exact ⟨show n ≤ v.capacity_ by omega, h2⟩
  · rw [Resize_noop v n he]
    exact ⟨h1, h2⟩
  · by_cases hcap : n ≤ v.capacity_
    · rw [Resize_fill v n ha hcap]
      refine ⟨hcap, ?_⟩
      show v.capacity_ ≤ (fillByMove v.items_ v.size_ n).length
      rw [fillByMove, length_stdFill]
      exact h2
    · rw [Resize_growCase v n h1 (by omega)]
      have hm0 : ¬ max (v.capacity_ * 2) n = 0 := by omega
      obtain ⟨hs, hc, hl, _, _⟩ := Reserve_grow v (max (v.capacity_ * 2) n)
        (by rw [if_neg hm0]; omega) (by rw [if_neg hm0]; omega)
      rw [if_neg hm0] at hc hl
      constructor
      · show n ≤ (v.Reserve (max (v.capacity_ * 2) n)).capacity_
        omega
      · show (v.Reserve (max (v.capacity_ * 2) n)).capacity_
            ≤ (v.Reserve (max (v.capacity_ * 2) n)).items_.length
        omega

theorem WeakInv_pushBack (v : SimpleVector α) (x : α) (hw : v.WeakInv) :
    (v.PushBack x).WeakInv := by
  obtain ⟨h1, h2⟩ := hw
  by_cases hfull : v.size_ = v.capacity_
  · have hlt : v.capacity_ < (if v.capacity_ * 2 = 0 then 1 else v.capacity_ * 2) := by
      by_cases hc0 : v.capacity_ = 0
      · simp [hc0]
      · rw [if_neg (by omega)]
        omega
    obtain ⟨hs, hc, hl, _, _⟩ := Reserve_grow v (v.capacity_ * 2) hlt (by omega)
    have hncge : v.size_ + 1 ≤ (if v.capacity_ * 2 = 0 then 1 else v.capacity_ * 2) := by
      by_cases hc0 : v.capacity_ = 0
      · simp [hc0]
        omega
      · rw [if_neg (by omega)]
        omega
    have hPB : v.PushBack x = ⟨(v.Reserve (v.capacity_ * 2)).size_ + 1,
        (v.Reserve (v.capacity_ * 2)).capacity_,
        (v.Reserve (v.capacity_ * 2)).items_.set (v.Reserve (v.capacity_ * 2)).size_ x⟩ := by
      simp only [PushBack]
      rw [if_pos hfull]
    rw [hPB]
    constructor
    · show (v.Reserve (v.capacity_ * 2)).size_ + 1 ≤ (v.Reserve (v.capacity_ * 2)).capacity_
      omega
    · show (v.Reserve (v.capacity_ * 2)).capacity_
          ≤ ((v.Reserve (v.capacity_ * 2)).items_.set (v.Reserve (v.capacity_ * 2)).size_ x).length
      rw [List.length_set]
      omega
  · have hPB : v.PushBack x = ⟨v.size_ + 1, v.capacity_, v.items_.set v.size_ x⟩ := by
      simp only [PushBack]
      rw [if_neg hfull]
    rw [hPB]
    constructor
    · show v.size_ + 1 ≤ v.capacity_
      omega
    · show v.capacity_ ≤ (v.items_.set v.size_ x).length
      rw [List.length_set]
      exact h2

theorem WeakInv_insert (v : SimpleVector α) (i : Nat) (x : α) (hw : v.WeakInv)
    (hi : i < v.size_) : (v.Insert i x).1.WeakInv := by
  obtain ⟨h1, h2⟩ := hw
  by_cases hfull : v.size_ = v.capacity_
  · have hc0 : ¬ v.capacity_ = 0 := by omega
    have hnc : (if v.capacity_ * 2 = 0 then 1 else v.capacity_ * 2) = v.capacity_ * 2 := by
      rw [if_neg (by omega)]
    obtain ⟨hs, hc, hl, _, _⟩ := Reserve_grow v (v.capacity_ * 2)
      (by rw [hnc]; omega) (by rw [hnc]; omega)
    rw [hnc] at hc hl
    have hv1 : (v.Insert i x).1 = ⟨(v.Reserve (v.capacity_ * 2)).size_ + 1,
        (v.Reserve (v.capacity_ * 2)).capacity_,
        (shiftRightOne (v.Reserve (v.capacity_ * 2)).items_ i
          (v.Reserve (v.capacity_ * 2)).size_).set i x⟩ := by
      simp only [Insert]
      rw [if_pos hfull]
    rw [hv1]
    constructor
    · show (v.Reserve (v.capacity_ * 2)).size_ + 1 ≤ (v.Reserve (v.capacity_ * 2)).capacity_
      omega
    · show (v.Reserve (v.capacity_ * 2)).capacity_ ≤ (List.length _)
      rw [List.length_set, length_shiftRightOne]
      omega
  · have hv1 : (v.Insert i x).1 = ⟨v.size_ + 1, v.capacity_,
        (shiftRightOne v.items_ i v.size_).set i x⟩ := by
      simp only [Insert]
      rw [if_neg hfull]
    rw [hv1]
    constructor
    · show v.size_ + 1 ≤ v.capacity_
      omega
    · show v.capacity_ ≤ (List.length _)
      rw [List.length_set, length_shiftRightOne]
      exact h2

theorem WeakInv_erase (v : SimpleVector α) (i : Nat) (hw : v.WeakInv) :
    (v.Erase i).1.WeakInv := by
  obtain ⟨h1, h2⟩ := hw
  constructor
  · show v.size_ - 1 ≤ v.capacity_
    omega
  · show v.capacity_ ≤ (shiftLeftOne v.items_ i v.size_).length
    rw [length_shiftLeftOne]
    exact h2

theorem WeakInv_clear (v : SimpleVector α) (hw : v.WeakInv) : v.Clear.WeakInv :=
  WeakInv_resize v 0 hw

theorem WeakInv_mkSize (n : Nat) : (mkSize n : SimpleVector α).WeakInv := by
  constructor
  · exact Nat.le_refl n
  · show n ≤ (stdFill (List.replicate n default) 0 n default).length
    rw [length_stdFill, List.length_replicate]

theorem WeakInv_mkSizeVal (n : Nat) (x : α) : (mkSizeVal n x).WeakInv := by
  constructor
  · exact Nat.le_refl n
  · show n ≤ (stdFill (List.replicate n default) 0 n x).length
    rw [length_stdFill, List.length_replicate]

theorem WeakInv_mkInit (l : List α) : (mkInit l).WeakInv := by
  constructor
  · exact Nat.le_refl l.length
  · show l.length ≤ (stdCopy (List.replicate l.length default) 0 l).length
    rw [length_stdCopy, List.length_replicate]

theorem WeakInv_mkReserve (n : Nat) : (mkReserve n : SimpleVector α).WeakInv := by
  constructor
  · exact Nat.zero_le n
  · show n ≤ (List.replicate n (default : α)).length
    rw [List.length_replicate]

theorem WeakInv_copyCtor (v : SimpleVector α) : (copyCtor v).WeakInv := by
  constructor
  · exact Nat.le_refl v.size_
  · show v.size_ ≤ (stdCopy (List.replicate v.size_ default) 0
      (v.items_.take v.size_)).length
    rw [length_stdCopy, List.length_replicate]

theorem WeakInv_copyAssign (a b : SimpleVector α) : (copyAssign a b).WeakInv := by
  constructor
  · exact Nat.le_refl b.size_
  · show b.size_ ≤ (stdCopy (List.replicate b.size_ default) 0
      (b.items_.take b.size_)).length
    rw [length_stdCopy, List.length_replicate]

end SimpleVector

namespace SimpleVector

variable {α : Type}

theorem WeakInv_popBack (v : SimpleVector α) (hw : v.WeakInv) :
    v.PopBack.WeakInv := by
  obtain ⟨h1, h2⟩ := hw
  unfold PopBack
  by_cases h0 : v.size_ = 0
  · rw [if_pos h0]
    exact ⟨h1, h2⟩
  · rw [if_neg h0]
    exact ⟨show v.size_ - 1 ≤ v.capacity_ by omega, h2⟩

theorem WeakInv_mkDefault : (mkDefault : SimpleVector α).WeakInv :=
  ⟨Nat.le_refl 0, Nat.le_refl 0⟩

theorem WeakInv_moveCtorDst (v : SimpleVector α) (hw : v.WeakInv) :
    (moveCtor v).1.WeakInv := hw

theorem WeakInv_moveCtorSrc (v : SimpleVector α) :
    (moveCtor v).2.WeakInv := ⟨Nat.le_refl 0, Nat.le_refl 0⟩

theorem WeakInv_moveAssignDst (a b : SimpleVector α) (hwb : b.WeakInv) :
    (moveAssign a b).1.WeakInv := hwb

theorem WeakInv_moveAssignSrc (a b : SimpleVector α) :
    (moveAssign a b).2.WeakInv := ⟨Nat.le_refl 0, Nat.zero_le _⟩

theorem WeakInv_swapFst (a b : SimpleVector α) (hwb : b.WeakInv) :
    (swapOp a b).1.WeakInv := hwb

theorem WeakInv_swapSnd (a b : SimpleVector α) (hwa : a.WeakInv) :
    (swapOp a b).2.WeakInv := hwa

end SimpleVector

/-! ## The claims -/

namespace SimpleVector

variable {α : Type} [Inhabited α]

/-- C1: `Resize(n)` obeys the four-case contract: `n = size` is a no-op;
`n < size` truncates to size `n` with capacity and the surviving elements
unchanged; `size ≤ n ≤ capacity` default-fills the slots `[size, n)` and sets
the size to `n` without touching capacity or the old prefix; `n > capacity`
grows the capacity to `max(2 * capacity, n)`, keeps the first `size` elements,
default-fills `[size, n)` and sets the size to `n`. -/
theorem c1_resize_contract (v : SimpleVector α) (n : Nat) (hwf : v.Inv) :
    (n = v.size_ → v.Resize n = v) ∧
    (n < v.size_ →
      (v.Resize n).size_ = n ∧ (v.Resize n).capacity_ = v.capacity_ ∧
      ∀ i, i < n → (v.Resize n).get i = v.get i) ∧
    (v.size_ ≤ n → n ≤ v.capacity_ →
      (v.Resize n).size_ = n ∧ (v.Resize n).capacity_ = v.capacity_ ∧
      (∀ i, i < v.size_ → (v.Resize n).get i = v.get i) ∧
      (∀ i, v.size_ ≤ i → i < n → (v.Resize n).get i = default)) ∧
    (v.capacity_ < n →
      (v.Resize n).size_ = n ∧
      (v.Resize n).capacity_ = max (v.capacity_ * 2) n ∧
      (∀ i, i < v.size_ → (v.Resize n).get i = v.get i) ∧
      (∀ i, v.size_ ≤ i → i < n → (v.Resize n).get i = default)) := by
  obtain ⟨hsc, hlen⟩ := hwf
  refine ⟨fun h => Resize_noop v n h, fun h => ?_, fun h1 h2 => ?_, fun h => ?_⟩
  · rw [Resize_shrink v n h hsc]
    exact ⟨rfl, rfl, fun i hi => rfl⟩
  · by_cases he : n = v.size_
    · rw [Resize_noop v n he]
      exact ⟨he.symm, rfl, fun i hi => rfl, fun i hi1 hi2 => by omega⟩
    · have hlt : v.size_ < n := by omega
      rw [Resize_fill v n hlt h2]
      refine ⟨rfl, rfl, ?_, ?_⟩
      · intro i hi
        show (fillByMove v.items_ v.size_ n).getD i default = v.get i
        rw [fillByMove, getD_stdFill, if_neg (by omega)]
        rfl
      · intro i hi1 hi2
        show (fillByMove v.items_ v.size_ n).getD i default = default
        rw [fillByMove, getD_stdFill, if_pos ⟨hi1, hi2, by omega⟩]
  · have hm0 : ¬ (max (v.capacity_ * 2) n) = 0 := by omega
    have hgrow := Reserve_grow v (max (v.capacity_ * 2) n)
      (by rw [if_neg hm0]; omega) (by rw [if_neg hm0]; omega)
    rw [if_neg hm0] at hgrow
    obtain ⟨hs, hc2, hl, hlo, hhi⟩ := hgrow
    rw [Resize_growCase v n hsc h]
    exact ⟨rfl, hc2, fun i hi => hlo i hi, fun i hi1 hi2 => hhi i hi1⟩

/-- Witness for C1 at a concrete input: resizing `[1, 2]` down to 1 leaves
size 1. -/
theorem c1_resize_contract_witness :
    (mkInit [(1:Int), 2]).Inv ∧ ((mkInit [(1:Int), 2]).Resize 1).size_ = 1 :=
  ⟨by decide, (((c1_resize_contract (mkInit [(1:Int), 2]) 1 (by decide)).2.1) (by decide)).1⟩

/-- C2: `Insert(pos, v)` at a valid position grows the capacity exactly per
the `PushBack` rule when full, shifts the elements at or after the position
one slot toward the tail in order, stores the value at the position,
increments the size and returns an iterator to the inserted element; in
particular inserting 42 at index 2 of `[1, 2, 3, 4]` yields
`[1, 2, 42, 3, 4]`. -/
theorem c2_insert_contract [DecidableEq α] (v : SimpleVector α) (i : Nat) (x : α)
    (hwf : v.Inv) (hi : i < v.size_) :
    (v.Insert i x).2 = i ∧
    (v.Insert i x).1.size_ = v.size_ + 1 ∧
    (v.Insert i x).1.get i = x ∧
    (∀ k, k < i → (v.Insert i x).1.get k = v.get k) ∧
    (∀ k, i < k → k ≤ v.size_ → (v.Insert i x).1.get k = v.get (k - 1)) ∧
    (v.size_ = v.capacity_ →
      (v.Insert i x).1.capacity_ = (if v.capacity_ = 0 then 1 else v.capacity_ * 2)) ∧
    (¬ v.size_ = v.capacity_ → (v.Insert i x).1.capacity_ = v.capacity_) ∧
    vecEq ((mkInit [(1:Int), 2, 3, 4]).Insert 2 42).1 (mkInit [1, 2, 42, 3, 4]) = true := by
  obtain ⟨ha, hb, hc, hd, he, hf, hg⟩ := Insert_spec v i x hwf hi
  refine ⟨ha, hb, hc, hd, he, ?_, ?_, by decide⟩
  · intro hfull
    rw [hf, if_pos hfull]
  · intro hfull
    rw [hf, if_neg hfull]

/-- Witness for C2 at a concrete input: inserting into `[10, 20]` at index 0
gives size 3. -/
theorem c2_insert_contract_witness :
    ((mkInit [(10:Int), 20]).Insert 0 5).1.size_ = 3 :=
  (c2_insert_contract (mkInit [(10:Int), 20]) 0 5 (by decide) (by decide)).2.1

/-- C3: `PushBack(v)` stores the value at index `old_size`, increments the
size, leaves the old elements unchanged, and when the vector was full first
grows the capacity (0 becomes 1, otherwise doubled); starting from a
zero-capacity vector the first push makes capacity 1 and the second makes
capacity 2. -/
theorem c3_pushback_contract (v : SimpleVector α) (x : α) (hwf : v.Inv) :
    (v.PushBack x).get v.size_ = x ∧
    (v.PushBack x).size_ = v.size_ + 1 ∧
    (∀ i, i < v.size_ → (v.PushBack x).get i = v.get i) ∧
    (v.size_ = v.capacity_ →
      (v.PushBack x).capacity_ = (if v.capacity_ = 0 then 1 else v.capacity_ * 2)) ∧
    ((mkDefault : SimpleVector Int).PushBack 7).capacity_ = 1 ∧
    (((mkDefault : SimpleVector Int).PushBack 7).PushBack 8).capacity_ = 2 := by
  obtain ⟨h1, h2, h3, h4, h5⟩ := PushBack_spec v x hwf
  refine ⟨h2, h1, h3, ?_, by decide, by decide⟩
  intro hfull
  rw [h4, if_pos hfull]

/-- Witness for C3 at a concrete input: pushing 9 onto `[4]` puts 9 at
index 1. -/
theorem c3_pushback_contract_witness :
    ((mkInit [(4:Int)]).PushBack 9).get 1 = 9 :=
  (c3_pushback_contract (mkInit [(4:Int)]) 9 (by decide)).1

end SimpleVector

/-- C4 counterexample: moving out of an `ArrayPtr` does NOT always leave the
source empty. Move-assignment swaps the raw pointers, so after assigning a
buffer that owns block 1 into a destination owning block 0, the moved-from
source owns block 0 and its truthiness test is still true. -/
theorem c4_move_assign_source_not_empty :
    ((ArrayPtr.moveAssign ⟨some 0⟩ ⟨some 1⟩).2).toBoolOp = true := rfl

/-- C4 amended: move-construction nulls the source, while move-assignment
exchanges ownership, so afterwards the source owns something exactly when
the destination owned something before the move. -/
theorem c4_move_semantics (d s : ArrayPtr) :
    (ArrayPtr.moveCtor s).2.toBoolOp = false ∧
    (ArrayPtr.moveAssign d s).2.toBoolOp = d.toBoolOp := by
  constructor
  · rfl
  · unfold ArrayPtr.moveAssign
    by_cases h : d.raw_ptr_ = s.raw_ptr_
    · rw [if_pos h]
      show s.toBoolOp = d.toBoolOp
      unfold ArrayPtr.toBoolOp
      rw [h]
    · rw [if_neg h]

namespace SimpleVector

variable {α : Type} [Inhabited α]

/-- C5: `At(i)` signals a catchable out-of-range error exactly when
`i ≥ size`, and otherwise returns the same element as the unchecked access;
the embedding of `At` is a pure read (the source body assigns no member), so
size, capacity and elements are unchanged by the call. The two scenario
conjuncts check `array(3).At(3)` and `array(3).At(2)`. -/
theorem c5_at_contract (v : SimpleVector α) (i : Nat) :
    ((∃ msg, v.At i = .error msg) ↔ v.size_ ≤ i) ∧
    (i < v.size_ → v.At i = .ok (v.get i)) ∧
    ((mkSize 3 : SimpleVector Int).At 3 =
      .error "Elements index is incorrect (bigger than size)") ∧
    ((mkSize 3 : SimpleVector Int).At 2 = .ok ((mkSize 3 : SimpleVector Int).get 2)) := by
  refine ⟨⟨?_, ?_⟩, ?_, rfl, rfl⟩
  · rintro ⟨msg, hmsg⟩
    by_contra hlt
    unfold At at hmsg
    rw [if_neg hlt] at hmsg
    cases hmsg
  · intro hge
    exact ⟨_, by unfold At; rw [if_pos hge]⟩
  · intro hlt
    unfold At
    rw [if_neg (by omega)]
    rfl

/-- Witness for C5 at a concrete input: `At 1` of `[3, 4]` yields element 4
as the unchecked access does. -/
theorem c5_at_contract_witness :
    (mkInit [(3:Int), 4]).At 1 = .ok ((mkInit [(3:Int), 4]).get 1) :=
  (c5_at_contract (mkInit [(3:Int), 4]) 1).2.1 (by decide)

/-- C6 counterexample: the data-model invariant is NOT preserved by every
public operation. Move-assigning `[0, 1]` into a vector holding `[0]` leaves
the moved-from source with size 0 and capacity 0 while it still owns the
destination's former one-slot block, so it does not own a buffer of exactly
`capacity` slots. -/
theorem c6_moved_from_violates_inv :
    Reachable ((moveAssign (mkInit [(0:Int)]) (mkInit [0, 1])).2) ∧
    ¬ ((moveAssign (mkInit [(0:Int)]) (mkInit [0, 1])).2).Inv :=
  ⟨Reachable.moveAssignSrc (Reachable.mkInit _) (Reachable.mkInit _), by decide⟩

/-- C6 amended: every reachable state (constructors, public operations and
moved-from states) satisfies `0 ≤ size ≤ capacity`, and the owned block has
at least `capacity` slots; owning exactly `capacity` slots is what fails,
only for the source of a move-assignment. -/
theorem c6_reachable_weak_invariant (v : SimpleVector α) (h : Reachable v) :
    v.size_ ≤ v.capacity_ ∧ v.capacity_ ≤ v.items_.length := by
  induction h with
  | mkDefault => exact WeakInv_mkDefault
  | mkSize n => exact WeakInv_mkSize n
  | mkSizeVal n x => exact WeakInv_mkSizeVal n x
  | mkInit l => exact WeakInv_mkInit l
  | mkReserve n => exact WeakInv_mkReserve n
  | copyCtor hv ih => exact WeakInv_copyCtor _
  | copyAssign ha hb iha ihb => exact WeakInv_copyAssign _ _
  | moveCtorDst hv ih => exact WeakInv_moveCtorDst _ ih
  | moveCtorSrc hv ih => exact WeakInv_moveCtorSrc _
  | moveAssignDst ha hb iha ihb => exact WeakInv_moveAssignDst _ _ ihb
  | moveAssignSrc ha hb iha ihb => exact WeakInv_moveAssignSrc _ _
  | swapFst ha hb iha ihb => exact WeakInv_swapFst _ _ ihb
  | swapSnd ha hb iha ihb => exact WeakInv_swapSnd _ _ iha
  | clear hv ih => exact WeakInv_clear _ ih
  | resize n hv ih => exact WeakInv_resize _ n ih
  | popBack hv ih => exact WeakInv_popBack _ ih
  | pushBack x hv ih => exact WeakInv_pushBack _ x ih
  | insert i x hv hi ih => exact WeakInv_insert _ i x ih hi
  | erase i hv hi ih => exact WeakInv_erase _ i ih
  | reserve n hv ih => exact WeakInv_reserve _ n ih

/-- Witness for C6 at a concrete reachable state: `[5]` has size at most its
capacity. -/
theorem c6_reachable_weak_invariant_witness :
    (mkInit [(5:Int)]).size_ ≤ (mkInit [(5:Int)]).capacity_ :=
  (c6_reachable_weak_invariant (mkInit [(5:Int)]) (Reachable.mkInit _)).1

/-- C7: erasing at the iterator returned by `Insert(pos, v)` restores an
array equal (per `operator==`) to the original, for any value and any valid
position; and `Erase` itself shifts the elements after the position one slot
toward the head, decrements the size, and returns the position of the
element that followed the erased one. -/
theorem c7_insert_erase_roundtrip [DecidableEq α] (v : SimpleVector α) (i : Nat) (x : α)
    (hwf : v.Inv) (hi : i < v.size_) :
    vecEq (((v.Insert i x).1.Erase (v.Insert i x).2).1) v = true ∧
    (∀ (w : SimpleVector α) (j : Nat), w.Inv → j < w.size_ →
      (w.Erase j).2 = j ∧
      (w.Erase j).1.size_ = w.size_ - 1 ∧
      (∀ k, k < j → (w.Erase j).1.get k = w.get k) ∧
      (∀ k, j ≤ k → k + 1 < w.size_ → (w.Erase j).1.get k = w.get (k + 1))) := by
  constructor
  · obtain ⟨hr2, hsz1, hgx, hlo1, hhi1, hcap1, hinv1⟩ := Insert_spec v i x hwf hi
    rw [hr2]
    have hi2 : i < (v.Insert i x).1.size_ := by omega
    obtain ⟨he2, hesz, hecap, helo, hehi, heinv⟩ := Erase_spec (v.Insert i x).1 i hinv1 hi2
    apply (vecEq_iff _ _).mpr
    constructor
    · omega
    · intro k hk
      have hks : k < v.size_ := by omega
      by_cases hcase : k < i
      · rw [helo k hcase, hlo1 k hcase]
      · have hx1 := hehi k (by omega) (by omega)
        have hx2 := hhi1 (k + 1) (by omega) (by omega)
        rw [hx1, hx2, Nat.add_sub_cancel]
  · intro w j hwfw hjw
    obtain ⟨ha, hb, hc, hd, he, hf⟩ := Erase_spec w j hwfw hjw
    exact ⟨ha, hb, hd, he⟩

/-- Witness for C7 at a concrete input: insert 9 at index 1 of `[1, 2, 3]`,
erase at the returned iterator, and the array equals the original. -/
theorem c7_insert_erase_roundtrip_witness :
    vecEq ((((mkInit [(1:Int), 2, 3]).Insert 1 9).1.Erase
      ((mkInit [(1:Int), 2, 3]).Insert 1 9).2).1) (mkInit [(1:Int), 2, 3]) = true :=
  (c7_insert_erase_roundtrip (mkInit [(1:Int), 2, 3]) 1 9 (by decide) (by decide)).1

end SimpleVector

namespace SimpleVector

variable {α : Type} [Inhabited α]

/-- C8: `operator==` holds iff the two arrays have equal size and are
element-wise equal in order; equality is reflexive and symmetric; and equal
arrays are incomparable under the lexicographic `operator<` in both
directions. -/
theorem c8_equality_ordering [DecidableEq α] [LinearOrder α] (a b : SimpleVector α)
    (ha : a.Inv) (hb : b.Inv) :
    (vecEq a b = true ↔ (a.size_ = b.size_ ∧ ∀ i, i < a.size_ → a.get i = b.get i)) ∧
    vecEq a a = true ∧
    vecEq a b = vecEq b a ∧
    (vecEq a b = true → vecLt a b = false ∧ vecLt b a = false) := by
  refine ⟨vecEq_iff a b, ?_, vecEq_symm a b, ?_⟩
  · exact (vecEq_iff a a).mpr ⟨rfl, fun i hi => rfl⟩
  · intro h
    have ht := take_eq_of_vecEq a b ha hb h
    constructor
    · show lexCompare (a.items_.take a.size_) (b.items_.take b.size_) = false
      rw [ht]
      exact lexCompare_self _
    · show lexCompare (b.items_.take b.size_) (a.items_.take a.size_) = false
      rw [ht]
      exact lexCompare_self _

/-- Witness for C8 at a concrete input: `[1, 2] < [1, 2]` is false. -/
theorem c8_equality_ordering_witness :
    vecLt (mkInit [(1:Int), 2]) (mkInit [(1:Int), 2]) = false :=
  ((c8_equality_ordering (mkInit [(1:Int), 2]) (mkInit [(1:Int), 2])
    (by decide) (by decide)).2.2.2 (by decide)).1

/-- C9 counterexample: copy-assignment between two distinct empty vectors
does NOT satisfy the assertion `items_.Get() != rhs.items_.Get()`: both
handles are null, hence equal. -/
theorem c9_assert_fails_on_two_empty :
    copyAssignAssertHolds (mkDefault : SimpleVector Int) mkDefault = false := rfl

/-- C9 amended: the copy-assignment assertion holds exactly when at least one
of the two distinct arrays owns a block (two live allocations are distinct,
and a null handle differs from a live one); and the assignment itself deep
copies, giving size = capacity = the source size with the source's
elements. -/
theorem c9_copy_assign_amended (a b : SimpleVector α)
    (h : ¬ (a.items_ = [] ∧ b.items_ = [])) :
    copyAssignAssertHolds a b = true ∧
    (copyAssign a b).size_ = b.size_ ∧
    (copyAssign a b).capacity_ = b.size_ ∧
    (∀ i, i < b.size_ → (copyAssign a b).get i = b.get i) := by
  refine ⟨?_, rfl, rfl, ?_⟩
  · unfold copyAssignAssertHolds
    cases hA : a.items_.isEmpty <;> cases hB : b.items_.isEmpty <;>
      simp_all [List.isEmpty_iff]
  · intro i hi
    show (stdCopy (List.replicate b.size_ default) 0 (b.items_.take b.size_)).getD i default
        = b.get i
    exact getD_copyFront b.items_ b.size_ b.size_ i hi (Nat.le_refl _)

/-- Witness for C9 amended at a concrete input: assigning `[7]` into an empty
vector yields size 1. -/
theorem c9_copy_assign_amended_witness :
    (copyAssign (mkDefault : SimpleVector Int) (mkInit [(7:Int)])).size_ = 1 :=
  (c9_copy_assign_amended mkDefault (mkInit [(7:Int)]) (by decide)).2.1

/-- C10: the fill-in-place branch of `Resize` (taken when
`size < n ≤ capacity`) is NOT free of out-of-bounds buffer accesses: the
stray statement `Type* test = &items_[6];` forms a reference at buffer index
6 even when the capacity is smaller, as on a vector with size 0 and
capacity 1 resized to 1; the `FillByMove` writes of that branch are all in
bounds. -/
theorem c10_resize_fill_branch_oob :
    ((mkReserve 1 : SimpleVector Int).size_ < 1 ∧
      1 ≤ (mkReserve 1 : SimpleVector Int).capacity_) ∧
    6 ∈ resizeFillAccesses (mkReserve 1 : SimpleVector Int) 1 ∧
    ¬ (∀ j ∈ resizeFillAccesses (mkReserve 1 : SimpleVector Int) 1,
        j < (mkReserve 1 : SimpleVector Int).capacity_) ∧
    (∀ j ∈ (resizeFillAccesses (mkReserve 1 : SimpleVector Int) 1).tail,
        j < (mkReserve 1 : SimpleVector Int).capacity_) := by
  decide

end SimpleVector
